import Mathlib

/-!
Verification of the markdown command-block parser and shell-script renderer
(`src/command.rs`, `Commands::parse` and `Commands::as_shell_script`).

Modelling conventions:
* A line of text is a `List Char` (`Line`); the markdown input is given as its
  list of lines, mirroring `options.content.lines()`.  Byte offsets of the Rust
  code become character offsets (faithful for the ASCII tokens involved).
* The `skip_commands` regex is modelled as an arbitrary matcher function
  `Line → Bool`, standing for `Regex::is_match`.
* Rust `str::trim` uses the Unicode `White_Space` property; `isRustWhitespace`
  encodes that exact character set.
-/

namespace Me

abbrev Line := List Char

/-- The open-fence token searched with `line.find("```shell")`. -/
def shellFenceTok : Line := "```shell".toList

/-- The close-fence token compared with `line[offset..].eq("```")`. -/
def fenceCloseTok : Line := "```".toList

/-- The command-prompt marker `"$ "`. -/
def promptTok : Line := "$ ".toList

/-- The here-document token `"<<"`. -/
def heredocTok : Line := "<<".toList

def backslashChar : Char := Char.ofNat 92

def quoteChar : Char := Char.ofNat 39

/-- `isPrefixL p l` is true when `p` is a prefix of `l`. -/
def isPrefixL : Line → Line → Bool
  | [], _ => true
  | _ :: _, [] => false
  | a :: as, b :: bs => if a = b then isPrefixL as bs else false

/-- First index at which `pat` occurs in the line, mirroring `str::find`. -/
def findSubstr (pat : Line) : Line → Option Nat
  | [] => none
  | c :: rest =>
    if isPrefixL pat (c :: rest) then some 0
    else (findSubstr pat rest).map (· + 1)

/-- `str::contains`, via `findSubstr`. -/
def containsSubstr (pat l : Line) : Bool := (findSubstr pat l).isSome

/-- The Unicode `White_Space` set used by Rust `char::is_whitespace`. -/
def isRustWhitespace (c : Char) : Bool :=
  let n := c.toNat
  (0x09 ≤ n && n ≤ 0x0D) || n == 0x20 || n == 0x85 || n == 0xA0 ||
    n == 0x1680 || (0x2000 ≤ n && n ≤ 0x200A) || n == 0x2028 || n == 0x2029 ||
    n == 0x202F || n == 0x205F || n == 0x3000

/-- `str::trim`: drop whitespace from both ends. -/
def trimLine (l : Line) : Line :=
  ((l.dropWhile isRustWhitespace).reverse.dropWhile isRustWhitespace).reverse

/-- ASCII lowercasing of one character, as in `u8::to_ascii_lowercase`. -/
def asciiLower (c : Char) : Char :=
  if 'A' ≤ c ∧ c ≤ 'Z' then Char.ofNat (c.toNat + 32) else c

/-- `str::eq_ignore_ascii_case`. -/
def eqIgnoreAsciiCase (a b : Line) : Bool :=
  decide (a.map asciiLower = b.map asciiLower)

/-- `str::ends_with(char)`. -/
def endsWithChar (c : Char) (l : Line) : Bool := decide (l.getLast? = some c)

/-- The text after the first occurrence of `pat` (the `parts[1]` of
`splitn(2, pat)`); `[]` when `pat` does not occur. -/
def afterSubstr (pat l : Line) : Line :=
  match findSubstr pat l with
  | some i => l.drop (i + pat.length)
  | none => []

/-- The here-document delimiter: text after `<<`, trimmed, up to the first
space (`parts[1].trim().chars().take_while(|&c| c != ' ')`). -/
def heredocDelim (cl : Line) : Line :=
  (trimLine (afterSubstr heredocTok cl)).takeWhile (fun c => decide (c ≠ ' '))

/-- `Vec::join(" ")` on the buffered command lines. -/
def joinSpace (ls : List Line) : Line := List.intercalate [' '] ls

/-- `line[offset..]` guarded by `line.len() > offset`, else `""`. -/
def offsetSlice (off : Nat) (l : Line) : Line :=
  if l.length > off then l.drop off else []

/-- Strip the leading `"$ "` prompt marker when present. -/
def stripPrompt (cl : Line) : Line :=
  if isPrefixL promptTok cl then cl.drop 2 else cl

/-- The fully processed content line inside a block at fence offset `off`. -/
def contentLine (off : Nat) (l : Line) : Line := stripPrompt (offsetSlice off l)

/-- `enum ExecutionMode`. -/
inductive ExecutionMode where
  | Default
  | DelayBetweenCommands (ms : Nat)
  | Interactive
deriving DecidableEq

/-- `struct Command { lines: Vec<&str> }`. -/
structure Command where
  lines : List Line
deriving DecidableEq

/-- `struct ParserError { message: String }`. -/
structure ParserError where
  message : Line
deriving DecidableEq

/-- `struct Commands`. -/
structure Commands where
  commands : List Command
  executionMode : ExecutionMode
deriving DecidableEq

/-- `struct Options`: the parse configuration.  `content` is the input's list
of lines; `skipCommands` is the regex matcher. -/
structure Options where
  content : List Line
  executeFrom : Option Line
  executeUntil : Option Line
  skipCommands : Option (Line → Bool)
  executionMode : ExecutionMode

/-- The mutable scanner state of the `for` loop in `Commands::parse`. -/
structure PState where
  commands : List Command
  buffer : List Line
  withinBlock : Option Nat
  heredoc : Option Line
  fromFound : Bool
  untilFound : Bool
deriving DecidableEq

def initState : PState :=
  { commands := [], buffer := [], withinBlock := none, heredoc := none,
    fromFound := false, untilFound := false }

/-- Whether the skip regex matches, `false` when no regex is configured. -/
def skipMatches (opts : Options) (s : Line) : Bool :=
  match opts.skipCommands with
  | some rgx => rgx s
  | none => false

/-- The `execute_until` check at the bottom of the loop body
(src/command.rs lines 197-202); `true` in the pair means `break`. -/
def untilStage (opts : Options) (st : PState) (l : Line) : PState × Bool :=
  match opts.executeUntil with
  | some u =>
    if eqIgnoreAsciiCase (trimLine l) u then ({ st with untilFound := true }, true)
    else (st, false)
  | none => (st, false)

/-- The in-block processing of a content line
(src/command.rs lines 141-195). -/
def blockStage (opts : Options) (st : PState) (l : Line) : PState × Bool :=
  match st.withinBlock with
  | none => untilStage opts st l
  | some off =>
    let cl := contentLine off l
    match st.heredoc with
    | some d =>
      if cl = d then
        ({ st with commands := st.commands ++ [⟨st.buffer ++ [cl]⟩],
                   buffer := [], heredoc := none }, false)
      else
        ({ st with buffer := st.buffer ++ [cl] }, false)
    | none =>
      if containsSubstr heredocTok cl = true then
        ({ st with heredoc := some (heredocDelim cl),
                   buffer := st.buffer ++ [cl] }, false)
      else if endsWithChar backslashChar cl = true then
        ({ st with buffer := st.buffer ++ [cl] }, false)
      else if skipMatches opts (joinSpace (st.buffer ++ [cl])) = true then
        ({ st with buffer := [] }, false)
      else
        untilStage opts
          { st with commands := st.commands ++ [⟨st.buffer ++ [cl]⟩],
                    buffer := [] } l

/-- The `execute_from` gate (src/command.rs lines 133-139). -/
def fromStage (opts : Options) (st : PState) (l : Line) : PState × Bool :=
  match opts.executeFrom with
  | some f =>
    if st.fromFound then blockStage opts st l
    else if eqIgnoreAsciiCase (trimLine l) f then
      blockStage opts { st with fromFound := true } l
    else (st, false)
  | none => blockStage opts st l

/-- One iteration of the scanning loop of `Commands::parse`
(src/command.rs lines 120-203).  The boolean is `true` on `break`. -/
def processLine (opts : Options) (st : PState) (l : Line) : PState × Bool :=
  match findSubstr shellFenceTok l with
  | some off => ({ st with withinBlock := some off }, false)
  | none =>
    match st.withinBlock with
    | some off =>
      if l.length > off ∧ l.drop off = fenceCloseTok then
        ({ st with withinBlock := none }, false)
      else fromStage opts st l
    | none => fromStage opts st l

/-- The scanning loop over the input lines. -/
def run (opts : Options) : PState → List Line → PState
  | st, [] => st
  | st, l :: rest =>
    let r := processLine opts st l
    if r.2 then r.1 else run opts r.1 rest

def finalState (opts : Options) : PState := run opts initState opts.content

def fromNotFoundMsg (f : Line) : Line :=
  "No line matched the execute from: '".toList ++ f ++ "'".toList

def untilNotFoundMsg (u : Line) : Line :=
  "No line matched the execute until: '".toList ++ u ++ "'".toList

def untilAfterFromMsg (u f : Line) : Line :=
  "No line matched the execute until: '".toList ++ u ++
    "' after the execute from: '".toList ++ f ++ "'".toList

/-- `Commands::parse` (src/command.rs lines 111-234). -/
def parse (opts : Options) : Except ParserError Commands :=
  let st := finalState opts
  match opts.executeFrom, st.fromFound with
  | some f, false => .error ⟨fromNotFoundMsg f⟩
  | _, _ =>
    match opts.executeUntil, st.untilFound with
    | some u, false =>
      match opts.executeFrom with
      | some f => .error ⟨untilAfterFromMsg u f⟩
      | none => .error ⟨untilNotFoundMsg u⟩
    | _, _ => .ok ⟨st.commands, opts.executionMode⟩

/-- `Display for Command`: the lines joined with newlines. -/
def commandText (c : Command) : Line := List.intercalate ['\n'] c.lines

/-- Decimal rendering of a number, as `format!("{}")` on an unsigned int. -/
def natToChars (n : Nat) : Line := Nat.toDigits 10 n

/-- The `sleep <ms>` line emitted between delayed commands. -/
def sleepLineChars (ms : Nat) : Line := "sleep ".toList ++ natToChars ms

/-- The fixed script preamble pushed first by `as_shell_script`
(src/command.rs lines 238-247). -/
def preambleChars : Line :=
  "#!/bin/sh\n\n# Generated by the MARKDOWN executor\n# This file is automatically deleted once the execution completes\n\nset -e\n\n".toList

/-- The `Default` mode body: each command followed by a newline. -/
def defaultBody (cmds : List Command) : Line :=
  (cmds.map (fun c => commandText c ++ ['\n'])).flatten

/-- The `DelayBetweenCommands` body: first command, then `sleep <ms>` before
each subsequent command (src/command.rs lines 256-267). -/
def delayBody (ms : Nat) (cmds : List Command) : Line :=
  match cmds with
  | [] => []
  | c :: rest =>
    commandText c ++ ['\n'] ++
      (rest.map (fun d =>
        sleepLineChars ms ++ ['\n'] ++ (commandText d ++ ['\n']))).flatten

/-- `str::replace(s, "'", "''")` applied to the echoed command. -/
def replaceQuote (l : Line) : Line :=
  l.flatMap (fun c => if c = quoteChar then [quoteChar, quoteChar] else [c])

/-- One interactive confirmation block (src/command.rs lines 274-315). -/
def interactiveBlock (idx : Nat) (c : Command) : Line :=
  let echoLine : Line :=
    replaceQuote (match c.lines with
      | [] => "Missing command!!".toList
      | l :: _ => l)
  "# Confirms before executing each command.  The command can be skipped and the script exited.\ninteractive_".toList ++
    natToChars idx ++
    "() \x7b\n\n  if [ \"$\x7bEXECUTE_ALL\x7d\" != true ]; then\n    echo '\\033[0;02m--------------------------------------------------\\033[0m'\n    echo '\\033[0;94m>\\033[0m \\033[0;92m".toList ++
    echoLine ++
    "\\033[0m'\n    echo '\\033[0;02m--------------------------------------------------'\n    read -r -p 'Press enter to execute,\n A to execute all the remaining commands,\n S to skip and\n X to exit ' input\n    echo '--------------------------------------------------\\033[0m'\n\n    case $\x7binput\x7d in\n      [sS] ) return;;\n      [xX] ) exit 0;;\n      [aA] ) EXECUTE_ALL=true;\n        ;;\n      * )\n        ;;\n    esac\n  fi\n\n  # Execute the command\n  ".toList ++
    commandText c ++
    "\n\x7d\n\ninteractive_".toList ++
    natToChars idx ++
    "\n\n\n".toList

/-- The `Interactive` mode body (src/command.rs lines 269-316). -/
def interactiveBody (cmds : List Command) : Line :=
  "# When set to true, it will execute the remaining commands without interaction\nEXECUTE_ALL=false\n\n".toList ++
    (cmds.enum.map (fun p => interactiveBlock p.1 p.2)).flatten

/-- `Commands::as_shell_script` (src/command.rs lines 236-320). -/
def asShellScript (cs : Commands) : Line :=
  preambleChars ++
    (match cs.executionMode with
     | .Default => defaultBody cs.commands
     | .DelayBetweenCommands ms => delayBody ms cs.commands
     | .Interactive => interactiveBody cs.commands)

/-- Split a text on newline characters (observation device for statements
about the lines of the generated script). -/
def splitLines : Line → List Line
  | [] => [[]]
  | c :: rest =>
    if c = '\n' then [] :: splitLines rest
    else
      match splitLines rest with
      | [] => [[c]]
      | l :: ls => (c :: l) :: ls

/-- Whether this line satisfies the `execute_until` marker check. -/
def untilHit (opts : Options) (l : Line) : Bool :=
  match opts.executeUntil with
  | some u => eqIgnoreAsciiCase (trimLine l) u
  | none => false

/-- Whether this line satisfies the `execute_from` marker check. -/
def fromHit (opts : Options) (l : Line) : Bool :=
  match opts.executeFrom with
  | some f => eqIgnoreAsciiCase (trimLine l) f
  | none => false


/-- The line decomposition of the `DelayBetweenCommands` body: the first
command's lines, then for each subsequent command a `sleep <ms>` line followed
by that command's lines. -/
def delayBodyLines (ms : Nat) (cmds : List Command) : List Line :=
  match cmds with
  | [] => []
  | c :: rest => c.lines ++ rest.flatMap (fun d => sleepLineChars ms :: d.lines)

/-- Convenience: a list of string literals as a list of lines. -/
def sLines (ss : List String) : List Line := ss.map String.toList

/-- A markdown input whose only command is matched by the skip regex while its
line is also the `execute_until` marker. -/
def skipUntilOpts : Options :=
  { content := sLines ["```shell", "$ echo Line 1", "```"],
    executeFrom := none, executeUntil := some "$ echo Line 1".toList,
    skipCommands := some (fun s => containsSubstr "Line".toList s),
    executionMode := .Default }

/-- A scanner state inside a fence at offset 0, nothing buffered. -/
def inBlockState : PState :=
  { commands := [], buffer := [], withinBlock := some 0, heredoc := none,
    fromFound := false, untilFound := false }

/-- Options carrying only an `execute_until` marker and a skip regex. -/
def skipOnlyOpts : Options :=
  { content := [], executeFrom := none,
    executeUntil := some "$ echo Line 1".toList,
    skipCommands := some (fun s => containsSubstr "Line".toList s),
    executionMode := .Default }

/-- Both boundary markers set over an input matching neither. -/
def bothMarkersOpts : Options :=
  { content := [], executeFrom := some "A".toList,
    executeUntil := some "B".toList, skipCommands := none,
    executionMode := .Default }

/-- `execute_from` matched, `execute_until` never matched. -/
def fromFoundUntilMissOpts : Options :=
  { content := sLines ["hello"], executeFrom := some "hello".toList,
    executeUntil := some "zzz".toList, skipCommands := none,
    executionMode := .Default }

/-- `execute_from` never matched. -/
def fromMissOpts : Options :=
  { content := sLines ["x"], executeFrom := some "y".toList,
    executeUntil := none, skipCommands := none, executionMode := .Default }

/-- A here-document whose body line carries a `$ ` prompt marker. -/
def heredocPromptOpts : Options :=
  { content := sLines ["```shell", "$ cat << E", "$ x", "E", "```"],
    executeFrom := none, executeUntil := none, skipCommands := none,
    executionMode := .Default }

/-- A second here-document with a prompted body line (delimiter `EOF`). -/
def heredocVerbatimOpts : Options :=
  { content := sLines ["```shell", "$ cat << EOF", "$ hello", "EOF", "```"],
    executeFrom := none, executeUntil := none, skipCommands := none,
    executionMode := .Default }

/-- A scanner state inside a fence, in here-document mode with delimiter `E`. -/
def heredocState : PState :=
  { commands := [], buffer := ["cat << E".toList], withinBlock := some 0,
    heredoc := some "E".toList, fromFound := false, untilFound := false }

/-- A two-line backslash-continued command. -/
def backslashOpts : Options :=
  { content := sLines ["```shell", "$ java \\", "  -jar app.jar", "```"],
    executeFrom := none, executeUntil := none, skipCommands := none,
    executionMode := .Default }

/-- A fence that closes on a dangling continuation, followed by a second
fence. -/
def danglingThenBlockOpts : Options :=
  { content := sLines ["```shell", "$ a \\", "```", "```shell", "$ b", "```"],
    executeFrom := none, executeUntil := none, skipCommands := none,
    executionMode := .Default }

/-- A fence that closes on a dangling continuation, with no later fence. -/
def danglingOnlyOpts : Options :=
  { content := sLines ["```shell", "$ a \\", "```"],
    executeFrom := none, executeUntil := none, skipCommands := none,
    executionMode := .Default }

/-- Three single-line echo commands, for the delay-mode witness. -/
def threeEchoes : List Command :=
  [⟨["echo A".toList]⟩, ⟨["echo B".toList]⟩, ⟨["echo C".toList]⟩]

/-- Two commands for delay mode, the first itself being a `sleep 7` line. -/
def sleepyCommands : List Command := [⟨["sleep 7".toList]⟩, ⟨["echo hi".toList]⟩]

/-! ### Step lemmas for the scanning loop -/

theorem untilStage_miss (opts : Options) (st : PState) (l : Line)
    (h : untilHit opts l = false) : untilStage opts st l = (st, false) := by
  cases hu : opts.executeUntil with
  | none => unfold untilStage; rw [hu]
  | some u =>
    have h' : eqIgnoreAsciiCase (trimLine l) u = false := by
      unfold untilHit at h; rw [hu] at h; exact h
    unfold untilStage
    rw [hu]
    simp [h']

theorem processLine_open (opts : Options) (st : PState) (l : Line) (off : Nat)
    (h : findSubstr shellFenceTok l = some off) :
    processLine opts st l = ({ st with withinBlock := some off }, false) := by
  unfold processLine
  rw [h]

theorem processLine_close (opts : Options) (st : PState) (l : Line) (off : Nat)
    (hopen : findSubstr shellFenceTok l = none)
    (hb : st.withinBlock = some off)
    (hc : l.length > off ∧ l.drop off = fenceCloseTok) :
    processLine opts st l = ({ st with withinBlock := none }, false) := by
  unfold processLine
  rw [hopen, hb]
  simp [hc]

theorem processLine_inBlock (opts : Options) (st : PState) (l : Line) (off : Nat)
    (hopen : findSubstr shellFenceTok l = none)
    (hb : st.withinBlock = some off)
    (hc : ¬(l.length > off ∧ l.drop off = fenceCloseTok))
    (hfrom : opts.executeFrom = none ∨ st.fromFound = true) :
    processLine opts st l = blockStage opts st l := by
  unfold processLine
  rw [hopen, hb]
  simp only [if_neg hc]
  unfold fromStage
  rcases hfrom with h | h
  · rw [h]
  · cases hf : opts.executeFrom with
    | none => rfl
    | some f => simp [h]

theorem blockStage_heredoc (opts : Options) (st : PState) (l : Line)
    (off : Nat) (d : Line) (hb : st.withinBlock = some off)
    (hh : st.heredoc = some d) :
    blockStage opts st l =
      (if contentLine off l = d then
        { st with commands := st.commands ++ [⟨st.buffer ++ [contentLine off l]⟩],
                  buffer := [], heredoc := none }
       else { st with buffer := st.buffer ++ [contentLine off l] }, false) := by
  unfold blockStage
  rw [hb, hh]
  by_cases h : contentLine off l = d <;> simp [h]

theorem blockStage_cont (opts : Options) (st : PState) (l : Line) (off : Nat)
    (hb : st.withinBlock = some off) (hh : st.heredoc = none)
    (h1 : containsSubstr heredocTok (contentLine off l) = false)
    (h2 : endsWithChar backslashChar (contentLine off l) = true) :
    blockStage opts st l = ({ st with buffer := st.buffer ++ [contentLine off l] }, false) := by
  unfold blockStage
  rw [hb, hh]
  simp [h1, h2]

theorem blockStage_skip (opts : Options) (st : PState) (l : Line) (off : Nat)
    (hb : st.withinBlock = some off) (hh : st.heredoc = none)
    (h1 : containsSubstr heredocTok (contentLine off l) = false)
    (h2 : endsWithChar backslashChar (contentLine off l) = false)
    (hsk : skipMatches opts (joinSpace (st.buffer ++ [contentLine off l])) = true) :
    blockStage opts st l = ({ st with buffer := [] }, false) := by
  unfold blockStage
  rw [hb, hh]
  simp [h1, h2, hsk]

theorem blockStage_seal (opts : Options) (st : PState) (l : Line) (off : Nat)
    (hb : st.withinBlock = some off) (hh : st.heredoc = none)
    (h1 : containsSubstr heredocTok (contentLine off l) = false)
    (h2 : endsWithChar backslashChar (contentLine off l) = false)
    (hsk : skipMatches opts (joinSpace (st.buffer ++ [contentLine off l])) = false) :
    blockStage opts st l =
      untilStage opts
        { st with commands := st.commands ++ [⟨st.buffer ++ [contentLine off l]⟩],
                  buffer := [] } l := by
  unfold blockStage
  rw [hb, hh]
  simp [h1, h2, hsk]

theorem blockStage_no_until (opts : Options) (st : PState) (l : Line)
    (h : untilHit opts l = false) :
    (blockStage opts st l).1.untilFound = st.untilFound ∧
      (blockStage opts st l).2 = false := by
  unfold blockStage
  cases hb : st.withinBlock with
  | none => rw [untilStage_miss opts st l h]; simp
  | some off =>
    cases hh : st.heredoc with
    | some d => by_cases hd : contentLine off l = d <;> simp [hd]
    | none =>
      by_cases h1 : containsSubstr heredocTok (contentLine off l) = true
      · simp [h1]
      · by_cases h2 : endsWithChar backslashChar (contentLine off l) = true
        · simp [h1, h2]
        · by_cases h3 : skipMatches opts (joinSpace (st.buffer ++ [contentLine off l])) = true
          · simp [h1, h2, h3]
          · simp only [h1, h2, h3, if_neg, if_false]
            rw [untilStage_miss opts _ l h]
            simp

theorem fromStage_no_until (opts : Options) (st : PState) (l : Line)
    (h : untilHit opts l = false) :
    (fromStage opts st l).1.untilFound = st.untilFound ∧
      (fromStage opts st l).2 = false := by
  unfold fromStage
  cases hf : opts.executeFrom with
  | none => exact blockStage_no_until opts st l h
  | some f =>
    by_cases hff : st.fromFound
    · simp only [hff, if_true]
      exact blockStage_no_until opts st l h
    · by_cases hm : eqIgnoreAsciiCase (trimLine l) f = true
      · simp only [hff, hm, if_false, if_true]
        have := blockStage_no_until opts { st with fromFound := true } l h
        simpa using this
      · simp [hff, hm]

theorem processLine_no_until (opts : Options) (st : PState) (l : Line)
    (h : untilHit opts l = false) :
    (processLine opts st l).1.untilFound = st.untilFound ∧
      (processLine opts st l).2 = false := by
  unfold processLine
  cases ho : findSubstr shellFenceTok l with
  | some off => simp
  | none =>
    cases hb : st.withinBlock with
    | some off =>
      by_cases hc : l.length > off ∧ l.drop off = fenceCloseTok
      · simp [hc]
      · simp only [if_neg hc]
        exact fromStage_no_until opts st l h
    | none => exact fromStage_no_until opts st l h

theorem run_no_until (opts : Options) (lines : List Line) :
    ∀ st : PState, (∀ l ∈ lines, untilHit opts l = false) →
      (run opts st lines).untilFound = st.untilFound := by
  induction lines with
  | nil => intro st _; rfl
  | cons l rest ih =>
    intro st h
    have h1 := processLine_no_until opts st l (h l (by simp))
    have h2 := ih (processLine opts st l).1 (fun x hx => h x (by simp [hx]))
    unfold run
    simp [h1.2, h2, h1.1]

theorem processLine_from_miss (opts : Options) (st : PState) (l : Line) (f : Line)
    (hf : opts.executeFrom = some f) (hff : st.fromFound = false)
    (hmiss : eqIgnoreAsciiCase (trimLine l) f = false) :
    (processLine opts st l).1.fromFound = false ∧
      (processLine opts st l).2 = false := by
  unfold processLine
  cases ho : findSubstr shellFenceTok l with
  | some off => simp [hff]
  | none =>
    cases hb : st.withinBlock with
    | some off =>
      by_cases hc : l.length > off ∧ l.drop off = fenceCloseTok
      · simp [hc, hff]
      · simp only [if_neg hc]
        unfold fromStage
        rw [hf]
        simp [hff, hmiss]
    | none =>
      unfold fromStage
      rw [hf]
      simp [hff, hmiss]

theorem run_from_miss (opts : Options) (f : Line) (hf : opts.executeFrom = some f)
    (lines : List Line) :
    ∀ st : PState, st.fromFound = false →
      (∀ l ∈ lines, eqIgnoreAsciiCase (trimLine l) f = false) →
      (run opts st lines).fromFound = false := by
  induction lines with
  | nil => intro st hff _; exact hff
  | cons l rest ih =>
    intro st hff h
    have h1 := processLine_from_miss opts st l f hf hff (h l (by simp))
    have h2 := ih (processLine opts st l).1 h1.1 (fun x hx => h x (by simp [hx]))
    unfold run
    simp [h1.2, h2]

theorem processLine_heredoc (opts : Options) (st : PState) (l : Line)
    (off : Nat) (d : Line)
    (hopen : findSubstr shellFenceTok l = none)
    (hb : st.withinBlock = some off)
    (hc : ¬(l.length > off ∧ l.drop off = fenceCloseTok))
    (hfrom : opts.executeFrom = none ∨ st.fromFound = true)
    (hh : st.heredoc = some d) :
    processLine opts st l =
      (if contentLine off l = d then
        { st with commands := st.commands ++ [⟨st.buffer ++ [contentLine off l]⟩],
                  buffer := [], heredoc := none }
       else { st with buffer := st.buffer ++ [contentLine off l] }, false) := by
  rw [processLine_inBlock opts st l off hopen hb hc hfrom]
  exact blockStage_heredoc opts st l off d hb hh

theorem processLine_cont (opts : Options) (st : PState) (l : Line) (off : Nat)
    (hopen : findSubstr shellFenceTok l = none)
    (hb : st.withinBlock = some off)
    (hc : ¬(l.length > off ∧ l.drop off = fenceCloseTok))
    (hfrom : opts.executeFrom = none ∨ st.fromFound = true)
    (hh : st.heredoc = none)
    (h1 : containsSubstr heredocTok (contentLine off l) = false)
    (h2 : endsWithChar backslashChar (contentLine off l) = true) :
    processLine opts st l =
      ({ st with buffer := st.buffer ++ [contentLine off l] }, false) := by
  rw [processLine_inBlock opts st l off hopen hb hc hfrom]
  exact blockStage_cont opts st l off hb hh h1 h2

theorem processLine_skip (opts : Options) (st : PState) (l : Line) (off : Nat)
    (hopen : findSubstr shellFenceTok l = none)
    (hb : st.withinBlock = some off)
    (hc : ¬(l.length > off ∧ l.drop off = fenceCloseTok))
    (hfrom : opts.executeFrom = none ∨ st.fromFound = true)
    (hh : st.heredoc = none)
    (h1 : containsSubstr heredocTok (contentLine off l) = false)
    (h2 : endsWithChar backslashChar (contentLine off l) = false)
    (hsk : skipMatches opts (joinSpace (st.buffer ++ [contentLine off l])) = true) :
    processLine opts st l = ({ st with buffer := [] }, false) := by
  rw [processLine_inBlock opts st l off hopen hb hc hfrom]
  exact blockStage_skip opts st l off hb hh h1 h2 hsk

theorem processLine_seal (opts : Options) (st : PState) (l : Line) (off : Nat)
    (hopen : findSubstr shellFenceTok l = none)
    (hb : st.withinBlock = some off)
    (hc : ¬(l.length > off ∧ l.drop off = fenceCloseTok))
    (hfrom : opts.executeFrom = none ∨ st.fromFound = true)
    (hh : st.heredoc = none)
    (h1 : containsSubstr heredocTok (contentLine off l) = false)
    (h2 : endsWithChar backslashChar (contentLine off l) = false)
    (hsk : skipMatches opts (joinSpace (st.buffer ++ [contentLine off l])) = false) :
    processLine opts st l =
      untilStage opts
        { st with commands := st.commands ++ [⟨st.buffer ++ [contentLine off l]⟩],
                  buffer := [] } l := by
  rw [processLine_inBlock opts st l off hopen hb hc hfrom]
  exact blockStage_seal opts st l off hb hh h1 h2 hsk

/-! ### Lemmas about the lines of generated text -/

theorem splitLines_ne_nil (l : Line) : splitLines l ≠ [] := by
  induction l with
  | nil => simp [splitLines]
  | cons c rest ih =>
    unfold splitLines
    by_cases hc : c = '\n'
    · simp [hc]
    · simp only [if_neg hc]
      cases h : splitLines rest with
      | nil => exact absurd h ih
      | cons x xs => simp

theorem splitLines_cons_ne (c : Char) (rest : Line) (hc : c ≠ '\n') :
    splitLines (c :: rest) =
      match splitLines rest with
      | [] => [[c]]
      | l :: ls => (c :: l) :: ls := by
  rw [splitLines]
  exact if_neg hc

theorem splitLines_append_nl (a b : Line) (h : '\n' ∉ a) :
    splitLines (a ++ '\n' :: b) = a :: splitLines b := by
  induction a with
  | nil => simp [splitLines]
  | cons c cs ih =>
    have hc : c ≠ '\n' := fun hh => h (by simp [hh])
    have hcs : '\n' ∉ cs := fun hh => h (by simp [hh])
    simp only [List.cons_append]
    rw [splitLines_cons_ne c _ hc, ih hcs]

theorem intercalate_nl_cons_cons (x y : Line) (tl : List Line) :
    List.intercalate ['\n'] (x :: y :: tl) =
      x ++ '\n' :: List.intercalate ['\n'] (y :: tl) := by
  simp [List.intercalate, List.intersperse]

theorem splitLines_intercalate (ls : List Line) (b : Line) (hne : ls ≠ [])
    (hnl : ∀ l ∈ ls, '\n' ∉ l) :
    splitLines (List.intercalate ['\n'] ls ++ '\n' :: b) = ls ++ splitLines b := by
  induction ls with
  | nil => exact absurd rfl hne
  | cons x tl ih =>
    cases tl with
    | nil =>
      have hx : '\n' ∉ x := hnl x (by simp)
      have : List.intercalate ['\n'] [x] = x := by
        simp [List.intercalate, List.intersperse]
      rw [this, splitLines_append_nl x b hx]
      simp
    | cons y tl2 =>
      have hx : '\n' ∉ x := hnl x (by simp)
      rw [intercalate_nl_cons_cons, List.append_assoc, List.cons_append,
        splitLines_append_nl x _ hx,
        ih (by simp) (fun l hl => hnl l (by simp [hl]))]
      simp

theorem digitChar_ne_nl : ∀ d : Nat, d < 10 → Nat.digitChar d ≠ '\n' := by decide

theorem toDigitsCore_ne_nl :
    ∀ (fuel n : Nat) (ds : List Char), (∀ c ∈ ds, c ≠ '\n') →
      ∀ c ∈ Nat.toDigitsCore 10 fuel n ds, c ≠ '\n' := by
  intro fuel
  induction fuel with
  | zero => intro n ds h c hc; exact h c hc
  | succ f ih =>
    intro n ds h c hc
    have hd : Nat.digitChar (n % 10) ≠ '\n' :=
      digitChar_ne_nl (n % 10) (Nat.mod_lt n (by norm_num))
    have hds : ∀ x ∈ Nat.digitChar (n % 10) :: ds, x ≠ '\n' := by
      intro x hx
      rcases List.mem_cons.mp hx with h1 | h1
      · rw [h1]; exact hd
      · exact h x h1
    simp only [Nat.toDigitsCore] at hc
    split at hc
    · exact hds c hc
    · exact ih (n / 10) (Nat.digitChar (n % 10) :: ds) hds c hc

theorem nl_not_mem_sleepLineChars (ms : Nat) : '\n' ∉ sleepLineChars ms := by
  unfold sleepLineChars natToChars Nat.toDigits
  intro h
  rcases List.mem_append.mp h with h1 | h1
  · revert h1; decide
  · exact toDigitsCore_ne_nl (ms + 1) ms [] (by simp) '\n' h1 rfl

theorem count_sleep_flatMap (ms : Nat) (rest : List Command)
    (h : ∀ c ∈ rest, sleepLineChars ms ∉ c.lines) :
    (rest.flatMap (fun d => sleepLineChars ms :: d.lines)).count (sleepLineChars ms) =
      rest.length := by
  induction rest with
  | nil => rfl
  | cons d tl ih =>
    simp only [List.flatMap_cons, List.cons_append]
    rw [List.count_cons_self, List.count_append,
      List.count_eq_zero.mpr (h d (by simp)),
      ih (fun x hx => h x (by simp [hx]))]
    simp

theorem splitLines_commandText (c : Command) (b : Line) (hne : c.lines ≠ [])
    (hnl : ∀ l ∈ c.lines, '\n' ∉ l) :
    splitLines (commandText c ++ '\n' :: b) = c.lines ++ splitLines b := by
  unfold commandText
  exact splitLines_intercalate c.lines b hne hnl

theorem delayTail_splitLines (ms : Nat) (rest : List Command)
    (hne : ∀ c ∈ rest, c.lines ≠ [])
    (hnl : ∀ c ∈ rest, ∀ l ∈ c.lines, '\n' ∉ l) :
    splitLines ((rest.map (fun d =>
        sleepLineChars ms ++ ['\n'] ++ (commandText d ++ ['\n']))).flatten) =
      rest.flatMap (fun d => sleepLineChars ms :: d.lines) ++ [[]] := by
  induction rest with
  | nil => simp [splitLines]
  | cons d tl ih =>
    simp only [List.map_cons, List.flatten_cons]
    have hsh : sleepLineChars ms ++ ['\n'] ++ (commandText d ++ ['\n']) ++
        ((tl.map (fun d =>
          sleepLineChars ms ++ ['\n'] ++ (commandText d ++ ['\n']))).flatten) =
        sleepLineChars ms ++ '\n' :: (commandText d ++ '\n' ::
          ((tl.map (fun d =>
            sleepLineChars ms ++ ['\n'] ++ (commandText d ++ ['\n']))).flatten)) := by
      simp
    rw [hsh, splitLines_append_nl _ _ (nl_not_mem_sleepLineChars ms),
      splitLines_commandText d _ (hne d (by simp)) (hnl d (by simp)),
      ih (fun x hx => hne x (by simp [hx])) (fun x hx => hnl x (by simp [hx]))]
    simp

theorem delayBody_splitLines (ms : Nat) (cmds : List Command)
    (hne : ∀ c ∈ cmds, c.lines ≠ [])
    (hnl : ∀ c ∈ cmds, ∀ l ∈ c.lines, '\n' ∉ l) :
    splitLines (delayBody ms cmds) = delayBodyLines ms cmds ++ [[]] := by
  cases cmds with
  | nil => simp [delayBody, delayBodyLines, splitLines]
  | cons c rest =>
    simp only [delayBody, delayBodyLines]
    have hsh : commandText c ++ ['\n'] ++
        ((rest.map (fun d =>
          sleepLineChars ms ++ ['\n'] ++ (commandText d ++ ['\n']))).flatten) =
        commandText c ++ '\n' ::
          ((rest.map (fun d =>
            sleepLineChars ms ++ ['\n'] ++ (commandText d ++ ['\n']))).flatten) := by
      simp
    rw [hsh, splitLines_commandText c _ (hne c (by simp)) (hnl c (by simp)),
      delayTail_splitLines ms rest (fun x hx => hne x (by simp [hx]))
        (fun x hx => hnl x (by simp [hx]))]
    simp

theorem delayBodyLines_count (ms : Nat) (cmds : List Command)
    (hns : ∀ c ∈ cmds, sleepLineChars ms ∉ c.lines) :
    (delayBodyLines ms cmds).count (sleepLineChars ms) = cmds.length - 1 := by
  cases cmds with
  | nil => rfl
  | cons c rest =>
    unfold delayBodyLines
    rw [List.count_append, List.count_eq_zero.mpr (hns c (by simp)),
      count_sleep_flatMap ms rest (fun d hd => hns d (by simp [hd]))]
    simp

theorem run_cons (opts : Options) (st : PState) (l : Line) (rest : List Line) :
    run opts st (l :: rest) =
      if (processLine opts st l).2 then (processLine opts st l).1
      else run opts (processLine opts st l).1 rest := rfl

theorem run_cons_of_no_break (opts : Options) (st st' : PState) (l : Line)
    (rest : List Line) (h : processLine opts st l = (st', false)) :
    run opts st (l :: rest) = run opts st' rest := by
  rw [run_cons, h]
  simp

/-! ### The claims -/

/-- C4 (confirmed): when `execute_from` is set to a marker that no input line
case-insensitively equals after trimming, `parse` fails with the
`FromNotFound` error carrying exactly that marker, and no command list is
returned. -/
theorem c4_from_not_found (opts : Options) (f : Line)
    (hf : opts.executeFrom = some f)
    (hmiss : ∀ l ∈ opts.content, eqIgnoreAsciiCase (trimLine l) f = false) :
    parse opts = .error ⟨fromNotFoundMsg f⟩ := by
  have h : (finalState opts).fromFound = false :=
    run_from_miss opts f hf opts.content initState rfl hmiss
  simp [parse, hf, h]

theorem c4_witness :
    (∀ l ∈ fromMissOpts.content, eqIgnoreAsciiCase (trimLine l) "y".toList = false) ∧
      parse fromMissOpts = .error ⟨fromNotFoundMsg "y".toList⟩ :=
  ⟨by decide, c4_from_not_found fromMissOpts "y".toList rfl (by decide)⟩

/-- C3 counterexample: with both markers set over an input matching neither,
`parse` fails with the from-error, whose message does not name the until
marker — contradicting the claim that the failure is an until-error naming
both markers whenever the until marker never matches. -/
theorem c3_counterexample :
    parse bothMarkersOpts = .error ⟨fromNotFoundMsg "A".toList⟩ ∧
      containsSubstr "B".toList (fromNotFoundMsg "A".toList) = false :=
  ⟨rfl, rfl⟩

/-- C3 (amended): when `execute_until` is set to a marker no input line
matches, `parse` fails: with no `execute_from` the error names only the until
marker; with `execute_from` set and found, the error names both markers; with
`execute_from` set and never found, the from-error (naming only the from
marker) takes precedence.  No command list is returned. -/
theorem c3_until_error (opts : Options) (u : Line)
    (hu : opts.executeUntil = some u)
    (hmiss : ∀ l ∈ opts.content, eqIgnoreAsciiCase (trimLine l) u = false) :
    parse opts =
      match opts.executeFrom with
      | none => .error ⟨untilNotFoundMsg u⟩
      | some f =>
        if (finalState opts).fromFound then .error ⟨untilAfterFromMsg u f⟩
        else .error ⟨fromNotFoundMsg f⟩ := by
  have h1 : (finalState opts).untilFound = false := by
    have h2 := run_no_until opts opts.content initState ?_
    · exact h2
    · intro l hl
      unfold untilHit
      rw [hu]
      exact hmiss l hl
  cases hf : opts.executeFrom with
  | none => simp [parse, hf, hu, h1]
  | some f =>
    cases hb : (finalState opts).fromFound
    · simp [parse, hf, hu, h1, hb]
    · simp [parse, hf, hu, h1, hb]

theorem c3_witness :
    parse fromFoundUntilMissOpts =
      .error ⟨untilAfterFromMsg "zzz".toList "hello".toList⟩ :=
  Eq.trans (c3_until_error fromFoundUntilMissOpts "zzz".toList rfl (by decide))
    (by rfl)

/-- C2 (confirmed): on a command's terminating line, the skip-regex check is
evaluated before the `execute_until` bookkeeping: when the regex matches the
assembled command, the buffer is cleared and scanning continues — the state is
returned with `untilFound` untouched and no break — even though the line
itself satisfies the `execute_until` marker. -/
theorem c2_skip_before_until (opts : Options) (st : PState) (l : Line) (off : Nat)
    (hopen : findSubstr shellFenceTok l = none)
    (hb : st.withinBlock = some off)
    (hc : ¬(l.length > off ∧ l.drop off = fenceCloseTok))
    (hfrom : opts.executeFrom = none ∨ st.fromFound = true)
    (hh : st.heredoc = none)
    (h1 : containsSubstr heredocTok (contentLine off l) = false)
    (h2 : endsWithChar backslashChar (contentLine off l) = false)
    (hsk : skipMatches opts (joinSpace (st.buffer ++ [contentLine off l])) = true)
    (_huntil : untilHit opts l = true) :
    processLine opts st l = ({ st with buffer := [] }, false) :=
  processLine_skip opts st l off hopen hb hc hfrom hh h1 h2 hsk

theorem c2_witness :
    processLine skipOnlyOpts inBlockState ("$ echo Line 1".toList) =
      ({ inBlockState with buffer := [] }, false) :=
  c2_skip_before_until skipOnlyOpts inBlockState ("$ echo Line 1".toList) 0
    (by decide) rfl (by decide) (Or.inl rfl) rfl (by decide) (by decide)
    (by rfl) (by rfl)

/-- C1 counterexample: the only command's line both matches the skip regex and
equals the `execute_until` marker; the claim predicts the boundary still fires
and parse succeeds, but `parse` fails with the until-error. -/
theorem c1_counterexample :
    eqIgnoreAsciiCase (trimLine "$ echo Line 1".toList) "$ echo Line 1".toList
        = true ∧
      skipMatches skipUntilOpts
        (joinSpace [contentLine 0 "$ echo Line 1".toList]) = true ∧
      parse skipUntilOpts = .error ⟨untilNotFoundMsg "$ echo Line 1".toList⟩ :=
  ⟨rfl, rfl, rfl⟩

/-- C1 (amended/corrected): when the skip regex discards a command whose
terminating line (trimmed) is the `execute_until` marker, the until check is
not reached on that line: scanning continues, and when no other line matches
the marker, `parse` fails with the until-error rather than succeeding. -/
theorem c1_until_not_fired_on_skipped (t : Line) (rgx : Line → Bool)
    (h1 : findSubstr shellFenceTok (promptTok ++ t) = none)
    (h2 : containsSubstr heredocTok t = false)
    (h3 : endsWithChar backslashChar t = false)
    (h4 : rgx t = true) :
    parse { content := [shellFenceTok, promptTok ++ t, fenceCloseTok],
            executeFrom := none,
            executeUntil := some (trimLine (promptTok ++ t)),
            skipCommands := some rgx,
            executionMode := .Default } =
      .error ⟨untilNotFoundMsg (trimLine (promptTok ++ t))⟩ := by
  set opts : Options :=
    { content := [shellFenceTok, promptTok ++ t, fenceCloseTok],
      executeFrom := none,
      executeUntil := some (trimLine (promptTok ++ t)),
      skipCommands := some rgx,
      executionMode := .Default } with hopts
  have hcl : contentLine 0 (promptTok ++ t) = t := by
    unfold contentLine offsetSlice stripPrompt
    have hlen : (promptTok ++ t).length > 0 := by simp [promptTok]
    rw [if_pos hlen, List.drop_zero]
    have hpre : isPrefixL promptTok (promptTok ++ t) = true := by
      simp [promptTok, isPrefixL]
    rw [if_pos hpre]
    simp [promptTok]
  have step1 : processLine opts initState shellFenceTok =
      ({ initState with withinBlock := some 0 }, false) :=
    processLine_open opts initState shellFenceTok 0 (by decide)
  have hc2 : ¬((promptTok ++ t).length > 0 ∧
      (promptTok ++ t).drop 0 = fenceCloseTok) := by
    rintro ⟨-, hd⟩
    rw [List.drop_zero] at hd
    simp [promptTok, fenceCloseTok] at hd
  have hsk : skipMatches opts
      (joinSpace (({ initState with withinBlock := some 0 } : PState).buffer ++
        [contentLine 0 (promptTok ++ t)])) = true := by
    rw [hcl]
    have hjoin : joinSpace ([] ++ [t]) = t := by
      simp [joinSpace, List.intercalate, List.intersperse]
    simp only [initState]
    rw [hjoin]
    simpa [skipMatches, hopts] using h4
  have step2 : processLine opts { initState with withinBlock := some 0 }
      (promptTok ++ t) =
      ({ initState with withinBlock := some 0, buffer := [] }, false) := by
    have := processLine_skip opts { initState with withinBlock := some 0 }
      (promptTok ++ t) 0 h1 rfl hc2 (Or.inl rfl) rfl
      (by rw [hcl]; exact h2) (by rw [hcl]; exact h3) hsk
    simpa using this
  have step3 : processLine opts
      { initState with withinBlock := some 0, buffer := [] } fenceCloseTok =
      ({ initState with withinBlock := none, buffer := [] }, false) := by
    have := processLine_close opts
      { initState with withinBlock := some 0, buffer := [] } fenceCloseTok 0
      (by decide) rfl (by decide)
    simpa using this
  have hrun : finalState opts =
      { initState with withinBlock := none, buffer := [] } := by
    unfold finalState
    rw [show opts.content = [shellFenceTok, promptTok ++ t, fenceCloseTok]
      from rfl]
    rw [run_cons_of_no_break opts _ _ _ _ step1,
      run_cons_of_no_break opts _ _ _ _ step2,
      run_cons_of_no_break opts _ _ _ _ step3]
    rfl
  simp [parse, hrun, initState]

theorem c1_witness :
    parse { content :=
              [shellFenceTok, promptTok ++ "echo Line 1".toList, fenceCloseTok],
            executeFrom := none,
            executeUntil := some (trimLine (promptTok ++ "echo Line 1".toList)),
            skipCommands := some (fun s => containsSubstr "Line".toList s),
            executionMode := .Default } =
      .error ⟨untilNotFoundMsg (trimLine (promptTok ++ "echo Line 1".toList))⟩ :=
  c1_until_not_fired_on_skipped "echo Line 1".toList
    (fun s => containsSubstr "Line".toList s) (by decide) (by decide)
    (by decide) (by rfl)

/-- C5 counterexample: a here-document body line `$ x` is stored as `x` — the
`$ ` prompt marker is stripped from a continuation (here-document body) line,
contradicting the claim that it is never stripped there. -/
theorem c5_counterexample :
    parse heredocPromptOpts =
      .ok ⟨[⟨["cat << E".toList, "x".toList, "E".toList]⟩], .Default⟩ ∧
      "x".toList ≠ "$ x".toList :=
  ⟨rfl, by decide⟩

/-- C5 (amended/corrected): inside a block, every content line — including
here-document body lines and backslash-continuation lines of an already-open
command — is processed as `contentLine off l`, i.e. with the offset prefix
stripped and then the `$ ` prompt marker stripped when present. -/
theorem c5_prompt_stripped (opts : Options) (st : PState) (l : Line) (off : Nat)
    (hopen : findSubstr shellFenceTok l = none)
    (hb : st.withinBlock = some off)
    (hc : ¬(l.length > off ∧ l.drop off = fenceCloseTok))
    (hfrom : opts.executeFrom = none ∨ st.fromFound = true) :
    (∀ d : Line, st.heredoc = some d →
      processLine opts st l =
        (if contentLine off l = d then
          { st with commands := st.commands ++ [⟨st.buffer ++ [contentLine off l]⟩],
                    buffer := [], heredoc := none }
         else { st with buffer := st.buffer ++ [contentLine off l] }, false)) ∧
    (st.heredoc = none →
      containsSubstr heredocTok (contentLine off l) = false →
      endsWithChar backslashChar (contentLine off l) = true →
      processLine opts st l =
        ({ st with buffer := st.buffer ++ [contentLine off l] }, false)) :=
  ⟨fun d hh => processLine_heredoc opts st l off d hopen hb hc hfrom hh,
   fun hh h1 h2 => processLine_cont opts st l off hopen hb hc hfrom hh h1 h2⟩

theorem c5_witness :
    processLine heredocPromptOpts heredocState ("$ x".toList) =
      ({ heredocState with
          buffer := heredocState.buffer ++ ["x".toList] }, false) := by
  have h := (c5_prompt_stripped heredocPromptOpts heredocState ("$ x".toList) 0
      (by decide) rfl (by decide) (Or.inl rfl)).1 "E".toList rfl
  rw [h]
  decide

/-- C6 counterexample: the here-document body line `$ hello` is captured as
`hello`, not verbatim — the capture applies prompt-marker stripping in
addition to fence-indentation stripping. -/
theorem c6_counterexample :
    parse heredocVerbatimOpts =
      .ok ⟨[⟨["cat << EOF".toList, "hello".toList, "EOF".toList]⟩], .Default⟩ ∧
      "hello".toList ≠ "$ hello".toList :=
  ⟨rfl, by decide⟩

/-- C6 (amended/corrected): in here-document mode with delimiter `d`, every
subsequent line that is neither a fence-open nor a fence-close line is
appended after offset stripping *and* prompt-marker stripping
(`contentLine off l`), through and including the first line whose processed
text equals `d`, which seals the buffer into a single command. -/
theorem c6_heredoc_capture (opts : Options) (off : Nat) (d : Line)
    (body : List Line) (dl : Line) (rest : List Line) :
    ∀ st : PState, st.withinBlock = some off → st.heredoc = some d →
      (opts.executeFrom = none ∨ st.fromFound = true) →
      (∀ l ∈ body, findSubstr shellFenceTok l = none ∧
        ¬(l.length > off ∧ l.drop off = fenceCloseTok) ∧ contentLine off l ≠ d) →
      findSubstr shellFenceTok dl = none →
      ¬(dl.length > off ∧ dl.drop off = fenceCloseTok) →
      contentLine off dl = d →
      run opts st (body ++ dl :: rest) =
        run opts
          { st with
            commands := st.commands ++
              [⟨st.buffer ++ body.map (contentLine off) ++ [d]⟩],
            buffer := [], heredoc := none } rest := by
  induction body with
  | nil =>
    intro st hb hh hfrom _ ho1 hc1 hd1
    have hstep := processLine_heredoc opts st dl off d ho1 hb hc1 hfrom hh
    rw [if_pos hd1, hd1] at hstep
    rw [List.nil_append, run_cons_of_no_break opts st _ dl rest hstep]
    simp
  | cons b bs ih =>
    intro st hb hh hfrom hbody ho1 hc1 hd1
    obtain ⟨hob, hcb, hdb⟩ := hbody b (by simp)
    have hstep := processLine_heredoc opts st b off d hob hb hcb hfrom hh
    rw [if_neg hdb] at hstep
    rw [List.cons_append, run_cons_of_no_break opts st _ b _ hstep]
    rw [ih { st with buffer := st.buffer ++ [contentLine off b] } hb hh hfrom
      (fun x hx => hbody x (by simp [hx])) ho1 hc1 hd1]
    simp

theorem c6_witness :
    run heredocPromptOpts heredocState (["$ a".toList] ++ "E".toList :: []) =
      run heredocPromptOpts
        { heredocState with
          commands := heredocState.commands ++
            [⟨heredocState.buffer ++
              (["$ a".toList]).map (contentLine 0) ++ ["E".toList]⟩],
          buffer := [], heredoc := none } [] :=
  c6_heredoc_capture heredocPromptOpts 0 "E".toList ["$ a".toList]
    "E".toList [] heredocState rfl rfl (Or.inl rfl) (by decide) (by decide)
    (by decide) (by decide)

/-- C7 counterexample: the two-line backslash-continued command is stored with
its first line still ending in the continuation backslash — the marker is not
removed, contradicting the claim. -/
theorem c7_counterexample :
    parse backslashOpts =
      .ok ⟨[⟨["java \\".toList, "  -jar app.jar".toList]⟩], .Default⟩ ∧
      endsWithChar backslashChar ("java \\".toList) = true :=
  ⟨rfl, rfl⟩

theorem run_backslash_chain (opts : Options) (off : Nat) (conts : List Line)
    (lastL : Line) (rest : List Line) :
    ∀ st : PState, st.withinBlock = some off → st.heredoc = none →
      (opts.executeFrom = none ∨ st.fromFound = true) →
      (∀ l ∈ conts, findSubstr shellFenceTok l = none ∧
        ¬(l.length > off ∧ l.drop off = fenceCloseTok) ∧
        containsSubstr heredocTok (contentLine off l) = false ∧
        endsWithChar backslashChar (contentLine off l) = true) →
      findSubstr shellFenceTok lastL = none →
      ¬(lastL.length > off ∧ lastL.drop off = fenceCloseTok) →
      containsSubstr heredocTok (contentLine off lastL) = false →
      endsWithChar backslashChar (contentLine off lastL) = false →
      skipMatches opts
        (joinSpace (st.buffer ++ (conts ++ [lastL]).map (contentLine off)))
        = false →
      run opts st (conts ++ lastL :: rest) =
        (let r := untilStage opts
          { st with
            commands := st.commands ++
              [⟨st.buffer ++ (conts ++ [lastL]).map (contentLine off)⟩],
            buffer := [] } lastL;
         if r.2 then r.1 else run opts r.1 rest) := by
  induction conts with
  | nil =>
    intro st hb hh hfrom _ ho hc h1 h2 hsk
    have hsk' : skipMatches opts
        (joinSpace (st.buffer ++ [contentLine off lastL])) = false := by
      simpa using hsk
    have hstep := processLine_seal opts st lastL off ho hb hc hfrom hh h1 h2 hsk'
    rw [List.nil_append, run_cons, hstep]
    simp
  | cons b bs ih =>
    intro st hb hh hfrom hconts ho hc h1 h2 hsk
    obtain ⟨hob, hcb, hhb, hbb⟩ := hconts b (by simp)
    have hstep := processLine_cont opts st b off hob hb hcb hfrom hh hhb hbb
    rw [List.cons_append, run_cons_of_no_break opts st _ b _ hstep]
    have hsk2 : skipMatches opts
        (joinSpace ((st.buffer ++ [contentLine off b]) ++
          (bs ++ [lastL]).map (contentLine off))) = false := by
      rw [List.append_assoc]
      simpa [List.append_assoc] using hsk
    rw [ih { st with buffer := st.buffer ++ [contentLine off b] } hb hh hfrom
      (fun x hx => hconts x (by simp [hx])) ho hc h1 h2 hsk2]
    simp [List.append_assoc]

/-- C7 (amended/corrected): a backslash-continued command of `K` physical
lines inside one fence is sealed into exactly one `Command` whose `lines` has
exactly `K` elements, each stored as the offset- and prompt-stripped line text
as-is — the trailing continuation backslash is retained, not removed. -/
theorem c7_backslash_buffering (opts : Options) (off : Nat) (conts : List Line)
    (lastL : Line) (rest : List Line) (st : PState)
    (hb : st.withinBlock = some off) (hh : st.heredoc = none)
    (hbuf : st.buffer = [])
    (hfrom : opts.executeFrom = none ∨ st.fromFound = true)
    (hconts : ∀ l ∈ conts, findSubstr shellFenceTok l = none ∧
      ¬(l.length > off ∧ l.drop off = fenceCloseTok) ∧
      containsSubstr heredocTok (contentLine off l) = false ∧
      endsWithChar backslashChar (contentLine off l) = true)
    (ho : findSubstr shellFenceTok lastL = none)
    (hc : ¬(lastL.length > off ∧ lastL.drop off = fenceCloseTok))
    (h1 : containsSubstr heredocTok (contentLine off lastL) = false)
    (h2 : endsWithChar backslashChar (contentLine off lastL) = false)
    (hsk : skipMatches opts
      (joinSpace ((conts ++ [lastL]).map (contentLine off))) = false) :
    run opts st (conts ++ lastL :: rest) =
      (let r := untilStage opts
        { st with
          commands := st.commands ++
            [⟨(conts ++ [lastL]).map (contentLine off)⟩],
          buffer := [] } lastL;
       if r.2 then r.1 else run opts r.1 rest) ∧
      ((conts ++ [lastL]).map (contentLine off)).length = conts.length + 1 := by
  constructor
  · have h := run_backslash_chain opts off conts lastL rest st hb hh hfrom
      hconts ho hc h1 h2 (by rw [hbuf]; simpa using hsk)
    rw [h]
    simp [hbuf]
  · simp

theorem c7_witness :
    run backslashOpts inBlockState
      (["$ java \\".toList] ++ "  -jar app.jar".toList :: []) =
      (let r := untilStage backslashOpts
        { inBlockState with
          commands := inBlockState.commands ++
            [⟨(["$ java \\".toList] ++ ["  -jar app.jar".toList]).map
              (contentLine 0)⟩],
          buffer := [] } ("  -jar app.jar".toList);
       if r.2 then r.1 else run backslashOpts r.1 []) ∧
      ((["$ java \\".toList] ++ ["  -jar app.jar".toList]).map
        (contentLine 0)).length = 2 :=
  c7_backslash_buffering backslashOpts 0 ["$ java \\".toList]
    ("  -jar app.jar".toList) [] inBlockState rfl rfl rfl (Or.inl rfl)
    (by decide) (by decide) (by decide) (by decide) (by decide) (by rfl)

/-- C8 counterexample: with two commands, the first of which is itself the
line `sleep 7`, the rendered delay-mode script contains two `sleep 7` lines,
not `max(N-1, 0) = 1` — the claim's count fails when a command's own text
coincides with the inserted sleep line. -/
theorem c8_counterexample :
    (splitLines (asShellScript ⟨sleepyCommands, .DelayBetweenCommands 7⟩)).count
        ("sleep 7".toList) = 2 ∧
      sleepyCommands.length - 1 = 1 :=
  ⟨rfl, rfl⟩

/-- C8 (amended/corrected): the delay-mode body consists of the first
command's lines followed, for each subsequent command, by one inserted
`sleep <ms>` line and then that command's lines — so no sleep line precedes
the first command or follows the last; and when no command's own lines
contain the literal `sleep <ms>` line, the body contains exactly
`max(N-1, 0)` such lines. -/
theorem c8_delay_sleep_lines (ms : Nat) (cmds : List Command)
    (hne : ∀ c ∈ cmds, c.lines ≠ [])
    (hnl : ∀ c ∈ cmds, ∀ l ∈ c.lines, '\n' ∉ l)
    (hns : ∀ c ∈ cmds, sleepLineChars ms ∉ c.lines) :
    splitLines (delayBody ms cmds) = delayBodyLines ms cmds ++ [[]] ∧
      (splitLines (delayBody ms cmds)).count (sleepLineChars ms) =
        cmds.length - 1 := by
  have h1 := delayBody_splitLines ms cmds hne hnl
  refine ⟨h1, ?_⟩
  rw [h1, List.count_append]
  have hnn : sleepLineChars ms ≠ ([] : Line) := by
    have : sleepLineChars ms = 's' :: ('l' :: ('e' :: ('e' :: ('p' ::
        (' ' :: natToChars ms))))) := rfl
    rw [this]
    simp
  have h0 : ([([] : Line)]).count (sleepLineChars ms) = 0 := by
    rw [List.count_eq_zero]
    simp [hnn]
  rw [h0, delayBodyLines_count ms cmds hns]
  simp

theorem c8_witness :
    splitLines (delayBody 100 threeEchoes) =
        delayBodyLines 100 threeEchoes ++ [[]] ∧
      (splitLines (delayBody 100 threeEchoes)).count (sleepLineChars 100) =
        threeEchoes.length - 1 :=
  c8_delay_sleep_lines 100 threeEchoes (by decide) (by decide) (by decide)

/-- C9 counterexample: the third line of the generated script is the
generated-file comment, not `set -e` — the preamble has two comment lines and
a blank between the shebang's blank line and `set -e`, contradicting the
claimed exact shape. -/
theorem c9_counterexample :
    (splitLines (asShellScript ⟨[], .Default⟩))[2]? =
        some "# Generated by the MARKDOWN executor".toList ∧
      (splitLines (asShellScript ⟨[], .Default⟩))[2]? ≠
        some "set -e".toList :=
  ⟨rfl, by decide⟩

/-- C9 (amended/corrected): every generated script starts with the fixed
preamble — `#!/bin/sh`, a blank line, the two generated-file comment lines, a
blank line, `set -e`, a blank line — followed immediately by the
mode-specific body; in particular Default mode on `echo A`/`echo B` yields
exactly `echo A\necho B\n` right after that preamble. -/
theorem c9_script_preamble :
    (∀ cs : Commands, ∃ body : Line, asShellScript cs = preambleChars ++ body) ∧
      splitLines preambleChars =
        ["#!/bin/sh".toList, [],
         "# Generated by the MARKDOWN executor".toList,
         "# This file is automatically deleted once the execution completes".toList,
         [], "set -e".toList, [], []] ∧
      asShellScript ⟨[⟨["echo A".toList]⟩, ⟨["echo B".toList]⟩], .Default⟩ =
        preambleChars ++ "echo A\necho B\n".toList :=
  ⟨fun _ => ⟨_, rfl⟩, rfl, rfl⟩

/-- C10 (confirmed): a fence-close line never touches the buffered
continuation lines — it only clears the in-block state, emitting nothing and
raising no error; concretely, a block that closes on a dangling continuation
parses `Ok`, the pending lines are prepended to the first command of the next
shell block when one follows, and are silently dropped when none does. -/
theorem c10_dangling_continuation :
    (∀ (opts : Options) (st : PState) (l : Line) (off : Nat),
      findSubstr shellFenceTok l = none → st.withinBlock = some off →
      (l.length > off ∧ l.drop off = fenceCloseTok) →
      processLine opts st l = ({ st with withinBlock := none }, false)) ∧
      parse danglingThenBlockOpts =
        .ok ⟨[⟨["a \\".toList, "b".toList]⟩], .Default⟩ ∧
      parse danglingOnlyOpts = .ok ⟨[], .Default⟩ :=
  ⟨fun opts st l off ho hb hc => processLine_close opts st l off ho hb hc,
   rfl, rfl⟩

theorem c10_witness :
    processLine danglingOnlyOpts
      { inBlockState with buffer := ["a \\".toList] } ("```".toList) =
      ({ { inBlockState with buffer := ["a \\".toList] } with
          withinBlock := none }, false) :=
  c10_dangling_continuation.1 danglingOnlyOpts
    { inBlockState with buffer := ["a \\".toList] } ("```".toList) 0
    (by decide) rfl (by decide)

end Me
